import Mathlib

/-!
Verification of the gate set tomography fitting engine of
`qiskit/ignis/verification/tomography/fitters/gateset_fitter.py`.

Conventions used throughout this development:

* The probability table of the fitter is modelled by total functions
  `p2` (entries `probs[(F_i, F_j)]`) and `p3` (entries
  `probs[(F_i, G_k, F_j)]`); SPAM labels and gate labels are abstract
  types, carried around as the ordered lists `spam` and `gates`.
* `Option` return values model Python exceptions: `none` is a raised
  error, `some` a normal return value.
* Machine floats are modelled by real numbers, complex numpy arrays by
  `Matrix _ _ ℂ`.
-/

open Matrix
open scoped ComplexOrder

attribute [local instance] Classical.propDecidable

/-- Gram matrix built by `GatesetTomographyFitter.linear_inversion`:
`gram_matrix[i][j] = self.probs[(F_i, F_j)]` where `F_i` is the `i`-th
entry of the ordered SPAM label list. -/
def gram_matrix {S : Type*} (spam : List S) (p2 : S → S → ℝ) :
    Matrix (Fin spam.length) (Fin spam.length) ℝ :=
  Matrix.of fun i j => p2 (spam.get i) (spam.get j)

/-- Data matrices built by `GatesetTomographyFitter.linear_inversion`:
for the `k`-th gate label `G_k`,
`gate_matrices[k][i][j] = self.probs[(F_i, G_k, F_j)]`. -/
def gate_matrices {S G : Type*} (spam : List S) (gates : List G)
    (p3 : S → G → S → ℝ) :
    List (Matrix (Fin spam.length) (Fin spam.length) ℝ) :=
  gates.map fun g => Matrix.of fun i j => p3 (spam.get i) g (spam.get j)

/-- Embedding of `GatesetTomographyFitter.linear_inversion`.  The source
builds the Gram matrix and the per-gate data matrices, computes
`np.linalg.inv(gram_matrix)` (which raises `numpy.linalg.LinAlgError`
when the Gram matrix is singular, modelled by `none`), left-multiplies
every data matrix by the inverse and zips the gate labels with the
results (`dict(zip(...))`, modelled as an association list). -/
noncomputable def linear_inversion {S G : Type*} (spam : List S) (gates : List G)
    (p2 : S → S → ℝ) (p3 : S → G → S → ℝ) :
    Option (List (G × Matrix (Fin spam.length) (Fin spam.length) ℝ)) :=
  if IsUnit (gram_matrix spam p2).det then
    some (gates.zip ((gate_matrices spam gates p3).map
      fun M => (gram_matrix spam p2)⁻¹ * M))
  else none

/-- Matrix `A` of the linear-inversion rationale: its `i`-th row is the
row vector `E · F_i` (spec: `A = sum (i> <E F_i)`). -/
def spam_row_matrix {S : Type*} (spam : List S)
    (E : Matrix (Fin 1) (Fin spam.length) ℝ)
    (F : S → Matrix (Fin spam.length) (Fin spam.length) ℝ) :
    Matrix (Fin spam.length) (Fin spam.length) ℝ :=
  Matrix.of fun i j => (E * F (spam.get i)) 0 j

/-- Matrix `B` of the linear-inversion rationale: its `j`-th column is
the column vector `F_j · rho` (spec: `B = sum (F_j rho><j)`). -/
def spam_col_matrix {S : Type*} (spam : List S)
    (F : S → Matrix (Fin spam.length) (Fin spam.length) ℝ)
    (rho : Matrix (Fin spam.length) (Fin 1) ℝ) :
    Matrix (Fin spam.length) (Fin spam.length) ℝ :=
  Matrix.of fun i j => (F (spam.get j) * rho) i 0

/-- One-label SPAM list used by the concrete C6 instances. -/
def w6spam : List ℕ := [0]

/-- Concrete measurement functional for the C6 witness. -/
def w6E : Matrix (Fin 1) (Fin w6spam.length) ℝ := Matrix.of fun _ _ => 1

/-- Concrete initial state for the C6 witness. -/
def w6rho : Matrix (Fin w6spam.length) (Fin 1) ℝ := Matrix.of fun _ _ => 1

/-- Concrete SPAM matrices for the C6 witness. -/
def w6F : ℕ → Matrix (Fin w6spam.length) (Fin w6spam.length) ℝ :=
  fun _ => Matrix.of fun _ _ => 1

/-- Concrete gate matrix for the C6 witness. -/
def w6G : ℕ → Matrix (Fin w6spam.length) (Fin w6spam.length) ℝ :=
  fun _ => Matrix.of fun _ _ => 2

/-- Probability table whose Gram matrix is `[[1, 0], [0, 10⁻¹⁶]]` — an
invertible but severely ill-conditioned matrix (condition number
`10¹⁶`). -/
noncomputable def ill_conditioned_p2 : ℕ → ℕ → ℝ :=
  fun s t => if s = 1 ∧ t = 1 then 1 / 10 ^ 16 else if s = t then 1 else 0

/-- Frobenius norm of a real matrix, modelling `np.linalg.norm`. -/
noncomputable def frobenius_norm {n m : ℕ} (M : Matrix (Fin n) (Fin m) ℝ) : ℝ :=
  Real.sqrt (∑ i, ∑ j, M i j ^ 2)

/-- Embedding of `GaugeOptimize.x_to_Gs_E`.  The argument `x` is
reshaped into the square gauge matrix `B` (we take the reshaped matrix
directly).  When `B` is invertible the transformed gate set
`[B⁻¹ · G · B  for G in initial_Gs_E]` is returned; when `np.linalg.inv`
raises `LinAlgError` the source catches it and returns the FLOAT
`np.inf` instead of a list — `none` models that non-list return
value. -/
noncomputable def x_to_Gs_E {d : ℕ} (initial_Gs_E : List (Matrix (Fin d) (Fin d) ℝ))
    (B : Matrix (Fin d) (Fin d) ℝ) : Option (List (Matrix (Fin d) (Fin d) ℝ)) :=
  if IsUnit B.det then some (initial_Gs_E.map fun G => B⁻¹ * G * B) else none

/-- Embedding of `GaugeOptimize.obj_fn`.  On the normal path it sums
the norm differences over `zip(self.Gs, Gs_E)`.  When `x_to_Gs_E`
returned the float `np.inf` (the singular-gauge case), the call
`zip(self.Gs, np.inf)` raises `TypeError: 'float' object is not
iterable`, so `obj_fn` propagates an exception instead of returning a
value: `none` models that raise. -/
noncomputable def gauge_obj_fn {d : ℕ} (Gs initial_Gs_E : List (Matrix (Fin d) (Fin d) ℝ))
    (B : Matrix (Fin d) (Fin d) ℝ) : Option ℝ :=
  match x_to_Gs_E initial_Gs_E B with
  | some Gs_E => some (((Gs.zip Gs_E).map fun p => frobenius_norm (p.1 - p.2)).sum)
  | none => none

/-- Embedding of the module helper `split_list` minus its length guard:
the `k`-th chunk is `l[i : i + sizes[k]]` for the running offset `i`. -/
def split_list_chunks : List ℝ → List ℕ → List (List ℝ)
  | _, [] => []
  | l, s :: ss => l.take s :: split_list_chunks (l.drop s) ss

/-- Embedding of the module helper `split_list`: raises a
`RuntimeError` (modelled by `none`) when the sizes do not sum to the
length of the list. -/
def split_list (l : List ℝ) (sizes : List ℕ) : Option (List (List ℝ)) :=
  if sizes.sum = l.length then some (split_list_chunks l sizes) else none

/-- Embedding of `GST_Optimize.compute_objective_function_data`.  The
source iterates `(i, j)` over `itertools.product(range(m), repeat=2)`
and `k` over `range(n)`; for each triple it stores the index sequence
`Fi_matrices + [k] + Fj_matrices` (where each SPAM label is expanded to
the `self.Gs.index`-positions of its constituent gate labels) together
with the measured probability `m_ijk = probs[(F_i, G_k, F_j)]`.  The
dictionary `self.Fs` is modelled as the association list `Fs` in key
order, `self.Gs` as the gate-label list `Gs`. -/
noncomputable def compute_objective_function_data {S Gl : Type*} [DecidableEq Gl]
    [Inhabited S] [Inhabited Gl] (Gs : List Gl) (Fs : List (S × List Gl))
    (probs : S → Gl → S → ℝ) : List (List ℕ × ℝ) :=
  (List.range Fs.length).flatMap fun i =>
    (List.range Fs.length).flatMap fun j =>
      (List.range Gs.length).map fun k =>
        ((((Fs.getD i default).2.map fun g => Gs.indexOf g) ++ [k] ++
            ((Fs.getD j default).2.map fun g => Gs.indexOf g)),
          probs (Fs.getD i default).1 (Gs.getD k default) (Fs.getD j default).1)

/-- Embedding of the loop body of `GST_Optimize.obj_fn` acting on the
matrices already decoded from the optimization vector `x`: for every
stored term, multiply `E` by the listed decoded gate matrices
(`G_matrices[G_index]`) in order and by `rho`, take the real part of
the resulting scalar, subtract `m_ijk`, square, and accumulate. -/
noncomputable def obj_fn_terms (data : List (List ℕ × ℝ))
    (E : Matrix (Fin 1) (Fin 4) ℂ) (rho : Matrix (Fin 4) (Fin 1) ℂ)
    (Gmats : List (Matrix (Fin 4) (Fin 4) ℂ)) : ℝ :=
  data.foldl (fun val term =>
    val + ((((term.1.foldl (fun tv idx => tv * Gmats.getD idx 0) E) * rho) 0 0).re
      - term.2) ^ 2) 0

/-- Claim-side notion for C2: the composed PTM matrix of a sequence of
gate labels is the ordered product of the decoded PTM matrices
associated with those labels (the matrix of label `g` being the one at
position `self.Gs.index(g)` of the decoded list). -/
noncomputable def ptm_prod {Gl : Type*} [DecidableEq Gl] (Gs : List Gl)
    (Gmats : List (Matrix (Fin 4) (Fin 4) ℂ)) (gates : List Gl) :
    Matrix (Fin 4) (Fin 4) ℂ :=
  (gates.map fun g => Gmats.getD (Gs.indexOf g) 0).prod

/-- High half of a row-major composite index: `p / 2`. -/
def finHi (p : Fin 4) : Fin 2 :=
  ⟨p.val / 2, by have h := p.isLt; omega⟩

/-- Low half of a row-major composite index: `p % 2`. -/
def finLo (p : Fin 4) : Fin 2 :=
  ⟨p.val % 2, by have h := p.isLt; omega⟩

/-- The four Pauli matrices `I, X, Y, Z`. -/
noncomputable def pauli : Fin 4 → Matrix (Fin 2) (Fin 2) ℂ :=
  ![!![1, 0; 0, 1], !![0, 1; 1, 0], !![0, -Complex.I; Complex.I, 0], !![1, 0; 0, -1]]

/-- Kronecker product of two `2 × 2` matrices with row-major composite
indices (`(A ⊗ B)[2 i₁ + i₂][2 j₁ + j₂] = A[i₁][j₁] · B[i₂][j₂]`). -/
noncomputable def kron2 (A B : Matrix (Fin 2) (Fin 2) ℂ) : Matrix (Fin 4) (Fin 4) ℂ :=
  Matrix.of fun p q => A (finHi p) (finHi q) * B (finLo p) (finLo q)

/-- Basis matrix `σ_bᵀ ⊗ σ_a` of the Pauli-pair expansion used to move
between the Choi and PTM representations of a single-qubit channel. -/
noncomputable def pauliTensor (a b : Fin 4) : Matrix (Fin 4) (Fin 4) ℂ :=
  kron2 (pauli b)ᵀ (pauli a)

/-- Model of the conversion `PTM(Choi(C)).data` performed by the
external library `qiskit.quantum_info` for one qubit: the PTM of the
channel with Choi matrix `C` is `R[a][b] = (1/d) · Tr(C · (σ_bᵀ ⊗ σ_a))`
at `d = 2`. -/
noncomputable def choiToPtm (C : Matrix (Fin 4) (Fin 4) ℂ) : Matrix (Fin 4) (Fin 4) ℂ :=
  Matrix.of fun a b => (1 / 2 : ℂ) * (C * pauliTensor a b).trace

/-- Model of the conversion `Choi(PTM(G)).data` performed by the
external library `qiskit.quantum_info` for one qubit: the Choi matrix
of the channel with PTM `R` is `(1/2) · Σ_{a,b} R[a][b] · (σ_bᵀ ⊗ σ_a)`,
the inverse of `choiToPtm`. -/
noncomputable def ptmToChoi (R : Matrix (Fin 4) (Fin 4) ℂ) : Matrix (Fin 4) (Fin 4) ℂ :=
  (1 / 2 : ℂ) • ∑ a : Fin 4, ∑ b : Fin 4, R a b • pauliTensor a b

/-- Row index of the `p`-th entry of a row-major flattened `n × n`
matrix. -/
def finDiv {n : ℕ} (p : Fin (n * n)) : Fin n :=
  ⟨p.val / n, by
    rcases Nat.eq_zero_or_pos n with h | h
    · exact absurd p.isLt (by simp [h])
    · exact (Nat.div_lt_iff_lt_mul h).mpr p.isLt⟩

/-- Column index of the `p`-th entry of a row-major flattened `n × n`
matrix. -/
def finMod {n : ℕ} (p : Fin (n * n)) : Fin n :=
  ⟨p.val % n, by
    rcases Nat.eq_zero_or_pos n with h | h
    · exact absurd p.isLt (by simp [h])
    · exact Nat.mod_lt _ h⟩

/-- Embedding of the module helper `matrix_to_vec`: the real parts of
all entries in row-major order, followed by the imaginary parts. -/
def matrix_to_vec {n : ℕ} (A : Matrix (Fin n) (Fin n) ℂ) : List ℝ :=
  (List.ofFn fun p : Fin (n * n) => (A (finDiv p) (finMod p)).re) ++
    (List.ofFn fun p : Fin (n * n) => (A (finDiv p) (finMod p)).im)

/-- Embedding of `GST_Optimize.complex_matrix_to_vec`, an identical
computation to `matrix_to_vec` with the dimension passed explicitly. -/
def complex_matrix_to_vec {n : ℕ} (M : Matrix (Fin n) (Fin n) ℂ) : List ℝ :=
  matrix_to_vec M

/-- Embedding of `GST_Optimize.vec_to_complex_matrix`: the first `n²`
entries are the real parts in row-major order, the next `n²` the
imaginary parts (`real + 1j·imag`); the inner `split_list` raises
(`none`) when the vector does not have exactly `2 n²` entries. -/
noncomputable def vec_to_complex_matrix (vec : List ℝ) (n : ℕ) :
    Option (Matrix (Fin n) (Fin n) ℂ) :=
  if n * n + n * n = vec.length then
    some (Matrix.of fun i j =>
      ((vec.getD (n * i.val + j.val) 0 : ℝ) : ℂ) +
        ((vec.getD (n * n + n * i.val + j.val) 0 : ℝ) : ℂ) * Complex.I)
  else none

/-- Row-major `np.reshape` of a `1 × 4` row into a `2 × 2` matrix. -/
def reshape_row_to_sq (E : Matrix (Fin 1) (Fin 4) ℂ) : Matrix (Fin 2) (Fin 2) ℂ :=
  Matrix.of fun i j => E 0 ⟨2 * i.val + j.val, by have hi := i.isLt; have hj := j.isLt; omega⟩

/-- Row-major `np.reshape` of a `2 × 2` matrix into a `1 × 4` row. -/
def reshape_sq_to_row (M : Matrix (Fin 2) (Fin 2) ℂ) : Matrix (Fin 1) (Fin 4) ℂ :=
  Matrix.of fun _ p => M (finHi p) (finLo p)

/-- Row-major `np.reshape` of a `4 × 1` column into a `2 × 2` matrix. -/
def reshape_col_to_sq (rho : Matrix (Fin 4) (Fin 1) ℂ) : Matrix (Fin 2) (Fin 2) ℂ :=
  Matrix.of fun i j => rho ⟨2 * i.val + j.val, by have hi := i.isLt; have hj := j.isLt; omega⟩ 0

/-- Row-major `np.reshape` of a `2 × 2` matrix into a `4 × 1` column. -/
def reshape_sq_to_col (M : Matrix (Fin 2) (Fin 2) ℂ) : Matrix (Fin 4) (Fin 1) ℂ :=
  Matrix.of fun p _ => M (finHi p) (finLo p)

/-- Embedding of the module helper `get_cholesky_like_decomposition`:
`np.linalg.eigh(mat)` yields the spectral decomposition `(eigenvals, P)`
of the Hermitian input, negative eigenvalues are zeroed, and the result
is `P @ diag(sqrt(eigenvals))`.  `eigh` presupposes a Hermitian input;
the fitter only ever calls it on Hermitian matrices, and the
non-Hermitian branch of the model is an arbitrary junk value. -/
noncomputable def get_cholesky_like_decomposition {n : ℕ}
    (mat : Matrix (Fin n) (Fin n) ℂ) : Matrix (Fin n) (Fin n) ℂ :=
  if h : mat.IsHermitian then
    (h.eigenvectorUnitary : Matrix (Fin n) (Fin n) ℂ) *
      Matrix.diagonal fun i => ((Real.sqrt (max (h.eigenvalues i) 0) : ℝ) : ℂ)
  else 0

/-- Embedding of `GST_Optimize.split_input_vector` for one qubit
(`d = 2`, `ds = 4`; the fitter only supports one qubit, compare
`default_init_state`).  The vector is split into blocks of sizes
`[2·d², 2·d²] ++ [2·ds²] * n`; the first two blocks decode to the
factors `E_T`, `rho_T`, the remaining `n` blocks (the comprehension
`T_vars[2+i] for i in range(n)`, i.e. all blocks after the first two)
to the per-gate factors.  `E = reshape(E_T @ E_T†, (1, ds))`,
`rho = reshape(rho_T @ rho_T†, (ds, 1))`, and every gate is
`PTM(Choi(G_T @ G_T†)).data`. -/
noncomputable def split_input_vector (nG : ℕ) (x : List ℝ) :
    Option (Matrix (Fin 1) (Fin 4) ℂ × Matrix (Fin 4) (Fin 1) ℂ ×
      List (Matrix (Fin 4) (Fin 4) ℂ)) := do
  let T_vars ← split_list x ([8, 8] ++ List.replicate nG 32)
  let E_T ← vec_to_complex_matrix (T_vars.getD 0 []) 2
  let rho_T ← vec_to_complex_matrix (T_vars.getD 1 []) 2
  let Gs_T ← (T_vars.drop 2).mapM fun v => vec_to_complex_matrix v 4
  return (reshape_sq_to_row (E_T * E_Tᴴ), reshape_sq_to_col (rho_T * rho_Tᴴ),
    Gs_T.map fun T => choiToPtm (T * Tᴴ))

/-- Embedding of `GST_Optimize.join_input_vector` for one qubit:
`E` and `rho` are reshaped to `d × d`, every gate PTM is converted to
its Choi matrix, each of these matrices is factored by
`get_cholesky_like_decomposition`, and the factors are flattened and
concatenated (`E_vec + rho_vec` followed by every gate block). -/
noncomputable def join_input_vector (E : Matrix (Fin 1) (Fin 4) ℂ)
    (rho : Matrix (Fin 4) (Fin 1) ℂ) (Gs : List (Matrix (Fin 4) (Fin 4) ℂ)) :
    List ℝ :=
  complex_matrix_to_vec (get_cholesky_like_decomposition (reshape_row_to_sq E)) ++
    complex_matrix_to_vec (get_cholesky_like_decomposition (reshape_col_to_sq rho)) ++
    (Gs.map fun G =>
      complex_matrix_to_vec (get_cholesky_like_decomposition (ptmToChoi G))).flatten

/-- Embedding of `GST_Optimize.obj_fn`: decode the optimization vector
with `split_input_vector`, then accumulate the squared residuals of
`compute_objective_function_data`. -/
noncomputable def obj_fn {S Gl : Type*} [DecidableEq Gl] [Inhabited S] [Inhabited Gl]
    (Gs : List Gl) (Fs : List (S × List Gl)) (probs : S → Gl → S → ℝ)
    (x : List ℝ) : Option ℝ :=
  (split_input_vector Gs.length x).map fun t =>
    obj_fn_terms (compute_objective_function_data Gs Fs probs) t.1 t.2.1 t.2.2

/-- Embedding of the loop body of `GST_Optimize.ptm_matrix_values`
acting on the decoded gate matrices: the concatenation of
`matrix_to_vec(G)` over all decoded gates. -/
def ptm_matrix_values_of (Gmats : List (Matrix (Fin 4) (Fin 4) ℂ)) : List ℝ :=
  Gmats.flatMap matrix_to_vec

/-- Embedding of `GST_Optimize.ptm_matrix_values` (decode, then
flatten). -/
noncomputable def ptm_matrix_values (nG : ℕ) (x : List ℝ) : Option (List ℝ) :=
  (split_input_vector nG x).map fun t => ptm_matrix_values_of t.2.2

/-- Embedding of the body of `GST_Optimize.rho_trace` acting on the
decoded `rho`: reshape the `ds × 1` column to `d × d`, take the trace,
and return its real and imaginary parts. -/
noncomputable def rho_trace_of (rho : Matrix (Fin 4) (Fin 1) ℂ) : List ℝ :=
  [(reshape_col_to_sq rho).trace.re, (reshape_col_to_sq rho).trace.im]

/-- Embedding of the body of `GST_Optimize.rho_trace_constraint`: the
equality-constraint values `[Re(Tr(rho)) − 1, Im(Tr(rho))]`. -/
noncomputable def rho_trace_constraint_of (rho : Matrix (Fin 4) (Fin 1) ℂ) : List ℝ :=
  [(reshape_col_to_sq rho).trace.re - 1, (reshape_col_to_sq rho).trace.im]

/-- Embedding of `GST_Optimize.rho_trace_constraint` (decode, then
evaluate). -/
noncomputable def rho_trace_constraint (nG : ℕ) (x : List ℝ) : Option (List ℝ) :=
  (split_input_vector nG x).map fun t => rho_trace_constraint_of t.2.1

/-- Embedding of the body of `GST_Optimize.bounds_eq_constraint` acting
on the flattened PTM value list `pm`.  The source walks a cursor `i`
through `pm`; for gate `k` the cursor spans `[32 k, 32 k + 32)`
(each gate contributes `ds² = 16` real parts followed by `16` imaginary
parts): offset `0` is `G^k_{0,0}` (pinned to 1), offsets `1..3` the
rest of row 0 (pinned to 0), offsets `4..15` are skipped, and offsets
`16..31` (the imaginary parts) are pinned to 0. -/
def bounds_eq_constraint_of (pm : List ℝ) (n : ℕ) : List ℝ :=
  (List.range n).flatMap fun k =>
    [pm.getD (32 * k) 0 - 1] ++
      (List.ofFn fun t : Fin 3 => pm.getD (32 * k + 1 + t.val) 0 - 0) ++
      (List.ofFn fun t : Fin 16 => pm.getD (32 * k + 16 + t.val) 0 - 0)

/-- Embedding of the body of `GST_Optimize.bounds_ineq_constraint`
acting on the flattened PTM value list `pm`: for gate `k`, offsets
`0..3` (row 0) and `16..31` (imaginary parts) are skipped and each of
the `(ds − 1)·ds = 12` remaining real entries (offsets `4..15`)
contributes the two inequality values `pm[i] + 1 ≥ 0` and
`−pm[i] + 1 ≥ 0`. -/
def bounds_ineq_constraint_of (pm : List ℝ) (n : ℕ) : List ℝ :=
  (List.range n).flatMap fun k =>
    (List.range 12).flatMap fun t =>
      [pm.getD (32 * k + 4 + t) 0 + 1, -(pm.getD (32 * k + 4 + t) 0) + 1]

/-- Embedding of `GST_Optimize.bounds_eq_constraint` (decode, then
evaluate). -/
noncomputable def bounds_eq_constraint (nG : ℕ) (x : List ℝ) : Option (List ℝ) :=
  (ptm_matrix_values nG x).map fun pm => bounds_eq_constraint_of pm nG

/-- Embedding of `GST_Optimize.bounds_ineq_constraint` (decode, then
evaluate). -/
noncomputable def bounds_ineq_constraint (nG : ℕ) (x : List ℝ) : Option (List ℝ) :=
  (ptm_matrix_values nG x).map fun pm => bounds_ineq_constraint_of pm nG

/-- Result record of `scipy.optimize.minimize`: the solution vector
`x` together with the convergence flag (`success` / exhausted
iteration budget). -/
structure OptResult where
  x : List ℝ
  success : Bool

/-- Embedding of `GST_Optimize.process_result`: decode the solution
vector and return the dictionary with keys `E`, `rho` and one entry per
gate label. -/
noncomputable def process_result {Gl : Type*} (Gs : List Gl) (x : List ℝ) :
    Option (Matrix (Fin 1) (Fin 4) ℂ × Matrix (Fin 4) (Fin 1) ℂ ×
      List (Gl × Matrix (Fin 4) (Fin 4) ℂ)) :=
  (split_input_vector Gs.length x).map fun t => (t.1, t.2.1, Gs.zip t.2.2)

/-- Embedding of `GST_Optimize.optimize`: run `scipy.optimize.minimize`
(modelled by its result record `res`) and return
`process_result(result.x)` — nothing else of `res` is inspected. -/
noncomputable def gst_optimize {Gl : Type*} (Gs : List Gl) (res : OptResult) :
    Option (Matrix (Fin 1) (Fin 4) ℂ × Matrix (Fin 4) (Fin 1) ℂ ×
      List (Gl × Matrix (Fin 4) (Fin 4) ℂ)) :=
  process_result Gs res.x

/-- Embedding of `GatesetTomographyFitter.default_init_state`: the
seed `rho = [[0.5], [0], [0], [0.5]]` for `size = 4`, a raised
`RuntimeError` (modelled by `none`) otherwise. -/
noncomputable def default_init_state (size : ℕ) : Option (Matrix (Fin 4) (Fin 1) ℝ) :=
  if size = 4 then some !![1 / 2; 0; 0; 1 / 2] else none

/-- Embedding of `GatesetTomographyFitter.default_measurement_op`: the
seed `E = [[1, 0, 0, 1]]` for `size = 4`, a raised `RuntimeError`
(modelled by `none`) otherwise. -/
noncomputable def default_measurement_op (size : ℕ) : Option (Matrix (Fin 1) (Fin 4) ℝ) :=
  if size = 4 then some !![1, 0, 0, 1] else none

/-- Embedding of the seeding prelude of `GatesetTomographyFitter.fit`
(the lines between `linear_inversion` and the construction of the two
optimizer objects): `E = default_measurement_op(n)` and
`rho = default_init_state(n)` for `n` the number of SPAM labels; a
raised `RuntimeError` (modelled by `none`) aborts `fit` before any
gauge or MLE optimization is constructed. -/
noncomputable def fit_seed (n : ℕ) : Option (Matrix (Fin 1) (Fin 4) ℝ × Matrix (Fin 4) (Fin 1) ℝ) := do
  let E ← default_measurement_op n
  let rho ← default_init_state n
  return (E, rho)

/-- Concrete factor matrix whose Gram square `c3T · c3T†` is the Choi
matrix of the identity channel (used by concrete constraint checks). -/
noncomputable def c3T : Matrix (Fin 4) (Fin 4) ℂ :=
  !![1, 0, 0, 0; 0, 0, 0, 0; 0, 0, 0, 0; 1, 0, 0, 0]

/-- Concrete optimization vector decoding to `E = 0`,
`rho = (1, 0, 0, 0)ᵀ` and the identity gate PTM. -/
noncomputable def c3x : List ℝ :=
  complex_matrix_to_vec (0 : Matrix (Fin 2) (Fin 2) ℂ) ++
    complex_matrix_to_vec (!![1, 0; 0, 0] : Matrix (Fin 2) (Fin 2) ℂ) ++
    ([complex_matrix_to_vec c3T]).flatten

/-- Concrete all-zero optimization vector for one gate. -/
noncomputable def c8x : List ℝ :=
  complex_matrix_to_vec (0 : Matrix (Fin 2) (Fin 2) ℂ) ++
    complex_matrix_to_vec (0 : Matrix (Fin 2) (Fin 2) ℂ) ++
    ([complex_matrix_to_vec (0 : Matrix (Fin 4) (Fin 4) ℂ)]).flatten

/-- Concrete zero measurement functional for the C6 counterexample. -/
def w6E0 : Matrix (Fin 1) (Fin w6spam.length) ℝ := Matrix.of fun _ _ => 0

/-- Helper: zipping a list with its own image under `f` pairs every
element with its image. -/
theorem list_zip_map_self {α β : Type*} (l : List α) (f : α → β) :
    l.zip (l.map f) = l.map fun a => (a, f a) := by
  induction l with
  | nil => rfl
  | cons a l ih => simp [ih]

/-- Claim C1: for a probability table containing all required entries
(modelled by the total functions `p2`, `p3`) and an invertible Gram
matrix (presupposed by the claim's use of `g⁻¹`), `linear_inversion`
returns the dictionary mapping the `k`-th gate label `G_k` to exactly
`g⁻¹ · M_k`, where `g[i][j] = probs[(F_i, F_j)]` and
`M_k[i][j] = probs[(F_i, G_k, F_j)]`. -/
theorem linear_inversion_gram_inverse_mul {S G : Type*} (spam : List S)
    (gates : List G) (p2 : S → S → ℝ) (p3 : S → G → S → ℝ)
    (hg : IsUnit (Matrix.det (Matrix.of fun i j => p2 (spam.get i) (spam.get j)))) :
    linear_inversion spam gates p2 p3 =
      some (gates.map fun g =>
        (g, (Matrix.of fun i j => p2 (spam.get i) (spam.get j))⁻¹ *
            Matrix.of fun i j => p3 (spam.get i) g (spam.get j))) := by
  simp only [linear_inversion, gram_matrix, gate_matrices]
  rw [if_pos hg, List.map_map, list_zip_map_self]
  simp [Function.comp]

/-- Witness for C1 at a one-label instance with all probabilities 1. -/
theorem linear_inversion_gram_inverse_mul_witness :
    linear_inversion [(0 : ℕ)] [(0 : ℕ)] (fun _ _ => (1 : ℝ)) (fun _ _ _ => (1 : ℝ)) =
      some ([(0 : ℕ)].map fun g =>
        (g, (Matrix.of fun _ _ => (1 : ℝ))⁻¹ * Matrix.of fun _ _ => (1 : ℝ))) :=
  linear_inversion_gram_inverse_mul [(0 : ℕ)] [(0 : ℕ)] _ _ (by
    rw [Matrix.det_fin_one]
    simp)

/-- Sandwiching a square matrix `P` between the SPAM structures: the
matrix of scalars `E · F_i · P · F_j · rho` is `A · P · B`. -/
theorem sandwich_eq_row_mul_col {S : Type*} (spam : List S)
    (E : Matrix (Fin 1) (Fin spam.length) ℝ)
    (F : S → Matrix (Fin spam.length) (Fin spam.length) ℝ)
    (rho : Matrix (Fin spam.length) (Fin 1) ℝ)
    (P : Matrix (Fin spam.length) (Fin spam.length) ℝ) :
    (Matrix.of fun i j => (E * F (spam.get i) * P * F (spam.get j) * rho) 0 0) =
      spam_row_matrix spam E F * P * spam_col_matrix spam F rho := by
  ext i j
  simp only [Matrix.of_apply, spam_row_matrix, spam_col_matrix, Matrix.mul_apply,
    Finset.sum_mul, Finset.mul_sum]
  rw [Finset.sum_comm]
  refine Finset.sum_congr rfl fun q _ => Finset.sum_congr rfl fun p _ => ?_
  simp [mul_assoc]

/-- Variant of `sandwich_eq_row_mul_col` with no middle factor: the Gram
matrix of exact probabilities is `A · B`. -/
theorem gram_eq_row_mul_col {S : Type*} (spam : List S)
    (E : Matrix (Fin 1) (Fin spam.length) ℝ)
    (F : S → Matrix (Fin spam.length) (Fin spam.length) ℝ)
    (rho : Matrix (Fin spam.length) (Fin 1) ℝ) :
    gram_matrix spam (fun s t => (E * F s * F t * rho) 0 0) =
      spam_row_matrix spam E F * spam_col_matrix spam F rho := by
  have h := sandwich_eq_row_mul_col spam E F rho 1
  rw [Matrix.mul_one] at h
  rw [gram_matrix, ← h]
  ext i j
  simp

/-- Claim C6 (amended): for probabilities generated exactly by a known
gate set, with BOTH the matrix `B` (columns `F_j · rho`) AND the matrix
`A` (rows `E · F_i`) invertible — the claim as stated assumed only `B`
invertible, but the Gram matrix `g = A·B` must be invertible for the
inversion to go through — `linear_inversion` maps every gate label
`G_k` to exactly `B⁻¹ · G_k · B`. -/
theorem linear_inversion_exact_data_similarity {S G : Type*} (spam : List S)
    (gates : List G) (E : Matrix (Fin 1) (Fin spam.length) ℝ)
    (F : S → Matrix (Fin spam.length) (Fin spam.length) ℝ)
    (rho : Matrix (Fin spam.length) (Fin 1) ℝ)
    (Gm : G → Matrix (Fin spam.length) (Fin spam.length) ℝ)
    (hA : IsUnit (spam_row_matrix spam E F).det)
    (hB : IsUnit (spam_col_matrix spam F rho).det) :
    linear_inversion spam gates (fun s t => (E * F s * F t * rho) 0 0)
        (fun s g t => (E * F s * Gm g * F t * rho) 0 0) =
      some (gates.map fun g =>
        (g, (spam_col_matrix spam F rho)⁻¹ * Gm g * spam_col_matrix spam F rho)) := by
  have hgram := gram_eq_row_mul_col spam E F rho
  have hdet : IsUnit (gram_matrix spam (fun s t => (E * F s * F t * rho) 0 0)).det := by
    rw [hgram, Matrix.det_mul]
    exact hA.mul hB
  rw [linear_inversion, if_pos hdet, gate_matrices, List.map_map, list_zip_map_self]
  refine congrArg some (List.map_congr_left fun g _ => ?_)
  simp only [Function.comp_apply]
  rw [sandwich_eq_row_mul_col spam E F rho (Gm g), hgram, Matrix.mul_inv_rev]
  rw [Matrix.mul_assoc (spam_row_matrix spam E F) (Gm g), Matrix.mul_assoc,
    Matrix.nonsing_inv_mul_cancel_left _ _ hA, ← Matrix.mul_assoc]

/-- Witness for the amended C6: a one-dimensional instance where both
`A` and `B` are invertible and the recovered gate is `B⁻¹ · G · B`. -/
theorem linear_inversion_exact_data_similarity_witness :
    linear_inversion w6spam [(0 : ℕ)]
        (fun s t => (w6E * w6F s * w6F t * w6rho) 0 0)
        (fun s g t => (w6E * w6F s * w6G g * w6F t * w6rho) 0 0) =
      some ([(0 : ℕ)].map fun g =>
        (g, (spam_col_matrix w6spam w6F w6rho)⁻¹ * w6G g *
          spam_col_matrix w6spam w6F w6rho)) :=
  linear_inversion_exact_data_similarity w6spam [(0 : ℕ)] w6E w6F w6rho w6G
    (by
      rw [Matrix.det_fin_one]
      simp [spam_row_matrix, w6spam, w6E, w6F, Matrix.mul_apply])
    (by
      rw [Matrix.det_fin_one]
      simp [spam_col_matrix, w6spam, w6rho, w6F, Matrix.mul_apply])

/-- Claim C7 (amended, singular part): when the Gram matrix is singular
(its determinant is not a unit), `np.linalg.inv` raises
`numpy.linalg.LinAlgError`, so `linear_inversion` signals the error to
the caller and returns no value at all — in particular it never
silently returns a result. -/
theorem linear_inversion_singular_gram_none {S G : Type*} (spam : List S)
    (gates : List G) (p2 : S → S → ℝ) (p3 : S → G → S → ℝ)
    (hg : ¬ IsUnit (gram_matrix spam p2).det) :
    linear_inversion spam gates p2 p3 = none := by
  rw [linear_inversion, if_neg hg]

/-- Witness for the amended C7: the all-zero probability table has a
singular Gram matrix and `linear_inversion` raises. -/
theorem linear_inversion_singular_gram_none_witness :
    linear_inversion [(0 : ℕ)] [(0 : ℕ)] (fun _ _ => (0 : ℝ)) (fun _ _ _ => (0 : ℝ)) =
      none :=
  linear_inversion_singular_gram_none [(0 : ℕ)] [(0 : ℕ)] _ _ (by
    rw [Matrix.det_fin_one]
    simp [gram_matrix])

/-- Counterexample to C7 as stated: an ill-conditioned (but exactly
invertible) Gram matrix does NOT make `linear_inversion` signal a
linear-algebra error; the inversion goes through and a result is
returned.  Only exact singularity raises. -/
theorem linear_inversion_ill_conditioned_returns_result :
    (linear_inversion [0, 1] [(0 : ℕ)] ill_conditioned_p2
      (fun _ _ _ => (0 : ℝ))).isSome = true := by
  have hdet : (gram_matrix [0, 1] ill_conditioned_p2).det = 1 / 10 ^ 16 := by
    rw [Matrix.det_fin_two]
    simp [gram_matrix, ill_conditioned_p2]
  have hunit : IsUnit (gram_matrix [0, 1] ill_conditioned_p2).det := by
    rw [hdet]
    have : (1 / 10 ^ 16 : ℝ) ≠ 0 := by norm_num
    exact isUnit_iff_ne_zero.mpr this
  rw [linear_inversion, if_pos hunit]
  rfl

/-- Claim C4 evaluated at a failing input (code bug): for the singular
gauge candidate `B = 0` (with a one-gate, one-dimensional gate set),
the gauge objective function does NOT return the penalty value `+∞` as
an ordinary function value: `x_to_Gs_E` returns the float `np.inf`,
`obj_fn` zips it with the gate list and the zip raises `TypeError`
(modelled by `none`), so the outer minimizer receives an exception
rather than a large function value. -/
theorem gauge_obj_fn_singular_raises :
    gauge_obj_fn [Matrix.of fun _ _ => (1 : ℝ)] [Matrix.of fun _ _ => (1 : ℝ)]
      (Matrix.of fun _ _ => (0 : ℝ) : Matrix (Fin 1) (Fin 1) ℝ) = none := by
  have h : ¬ IsUnit (Matrix.of fun _ _ => (0 : ℝ) : Matrix (Fin 1) (Fin 1) ℝ).det := by
    rw [Matrix.det_fin_one]
    simp
  rw [gauge_obj_fn, x_to_Gs_E, if_neg h]

/-- Helper: a left fold accumulating `+ f t` is the accumulator plus
the sum of the images. -/
theorem foldl_add_eq_sum {α : Type*} (f : α → ℝ) :
    ∀ (l : List α) (a : ℝ), l.foldl (fun v t => v + f t) a = a + (l.map f).sum := by
  intro l
  induction l with
  | nil => simp
  | cons t l ih =>
    intro a
    simp [ih, add_assoc]

/-- Helper: a left fold accumulating `* g idx` on a rectangular matrix
accumulator is the accumulator times the product of the images. -/
theorem foldl_mul_eq_mul_prod (g : ℕ → Matrix (Fin 4) (Fin 4) ℂ) :
    ∀ (l : List ℕ) (A : Matrix (Fin 1) (Fin 4) ℂ),
      l.foldl (fun tv idx => tv * g idx) A = A * (l.map g).prod := by
  intro l
  induction l with
  | nil =>
    intro A
    simp
  | cons s l ih =>
    intro A
    simp [ih, Matrix.mul_assoc]

/-- Helper: sum of a list obtained by `flatMap` over `range n`. -/
theorem sum_flatMap_range (n : ℕ) (F : ℕ → List ℝ) :
    ((List.range n).flatMap F).sum = ∑ i ∈ Finset.range n, (F i).sum := by
  induction n with
  | zero => simp
  | succ n ih => simp [List.range_succ, ih, Finset.sum_range_succ]

/-- Helper: sum of a list obtained by `map` over `range n`. -/
theorem sum_map_range (n : ℕ) (F : ℕ → ℝ) :
    ((List.range n).map F).sum = ∑ i ∈ Finset.range n, F i := by
  induction n with
  | zero => simp
  | succ n ih => simp [List.range_succ, ih, Finset.sum_range_succ]

/-- Claim C2: the objective function of the constrained MLE stage — the
accumulation `obj_fn` performs over `compute_objective_function_data` —
equals the sum over every triple (SPAM label `F_i`, gate label `G_k`,
SPAM label `F_j`) of the squared residual
`(Re(E · (PTMs of F_i's gates) · G_k · (PTMs of F_j's gates) · rho) − m_ijk)²`
with `m_ijk = probs[(F_i, G_k, F_j)]`; in particular no gate-free
`(F_i, F_j)`-only term contributes. -/
theorem obj_fn_eq_triple_residual_sum {S Gl : Type*} [DecidableEq Gl]
    [Inhabited S] [Inhabited Gl] (Gs : List Gl) (Fs : List (S × List Gl))
    (probs : S → Gl → S → ℝ) (E : Matrix (Fin 1) (Fin 4) ℂ)
    (rho : Matrix (Fin 4) (Fin 1) ℂ) (Gmats : List (Matrix (Fin 4) (Fin 4) ℂ)) :
    obj_fn_terms (compute_objective_function_data Gs Fs probs) E rho Gmats =
      ∑ i : Fin Fs.length, ∑ j : Fin Fs.length, ∑ k : Fin Gs.length,
        (((E * ptm_prod Gs Gmats (Fs.get i).2 * Gmats.getD k.val 0 *
            ptm_prod Gs Gmats (Fs.get j).2 * rho) 0 0).re
          - probs (Fs.get i).1 (Gs.get k) (Fs.get j).1) ^ 2 := by
  have part1 :
      obj_fn_terms (compute_objective_function_data Gs Fs probs) E rho Gmats =
        ∑ i ∈ Finset.range Fs.length, ∑ j ∈ Finset.range Fs.length,
          ∑ k ∈ Finset.range Gs.length,
            (((E * ptm_prod Gs Gmats (Fs.getD i default).2 * Gmats.getD k 0 *
                ptm_prod Gs Gmats (Fs.getD j default).2 * rho) 0 0).re
              - probs (Fs.getD i default).1 (Gs.getD k default) (Fs.getD j default).1) ^ 2 := by
    rw [obj_fn_terms, foldl_add_eq_sum, zero_add, compute_objective_function_data,
      List.map_flatMap, sum_flatMap_range]
    refine Finset.sum_congr rfl fun i _ => ?_
    rw [List.map_flatMap, sum_flatMap_range]
    refine Finset.sum_congr rfl fun j _ => ?_
    rw [List.map_map, sum_map_range]
    refine Finset.sum_congr rfl fun k _ => ?_
    simp only [Function.comp_apply, foldl_mul_eq_mul_prod, List.map_append,
      List.prod_append, List.map_cons, List.map_nil, List.prod_cons, List.prod_nil,
      mul_one, List.map_map, ptm_prod, Function.comp, Function.comp_def, Matrix.mul_assoc]
  rw [part1]
  simp only [← Fin.sum_univ_eq_sum_range]
  refine Finset.sum_congr rfl fun i _ => Finset.sum_congr rfl fun j _ =>
    Finset.sum_congr rfl fun k _ => ?_
  rw [List.getD_eq_getElem Fs default i.isLt, List.getD_eq_getElem Fs default j.isLt,
    List.getD_eq_getElem Gs default k.isLt]
  simp only [List.get_eq_getElem]

/-- Claim C10: the seeding prelude of `fit` supports only the
single-qubit case — for a SPAM-label count other than 4 it raises
`RuntimeError` (from `default_measurement_op` / `default_init_state`)
before the gauge or MLE optimization is constructed, and for exactly 4
SPAM labels it seeds the MLE stage with `E = [[1, 0, 0, 1]]` and
`rho = [[0.5], [0], [0], [0.5]]`. -/
theorem fit_seed_single_qubit_only (n : ℕ) :
    fit_seed n =
      if n = 4 then some (!![1, 0, 0, 1], !![1 / 2; 0; 0; 1 / 2]) else none := by
  by_cases h : n = 4 <;>
    simp [fit_seed, default_measurement_op, default_init_state, h]

/-- Claim C5 (amended): `GST_Optimize.optimize` returns only
`process_result(result.x)`; the convergence flag of the scipy result is
discarded, so the value returned to the caller of `fit`/`optimize` is
the same whether or not the solver converged. -/
theorem gst_optimize_ignores_convergence {Gl : Type*} (Gs : List Gl)
    (x : List ℝ) (s1 s2 : Bool) :
    gst_optimize Gs (OptResult.mk x s1) = gst_optimize Gs (OptResult.mk x s2) :=
  rfl

/-- Counterexample to C5 as stated: at the concrete solution vector
`x = 0⁴⁸` (one gate), a solver run that hit its iteration limit
(`success = false`) and a converged run (`success = true`) produce
identical results — no warning is attached and the caller cannot
distinguish the two cases. -/
theorem gst_optimize_no_warning_counterexample :
    gst_optimize [(0 : ℕ)] (OptResult.mk (List.replicate 48 0) false) =
      gst_optimize [(0 : ℕ)] (OptResult.mk (List.replicate 48 0) true) :=
  rfl

/-- Helper: a successful `Option`-valued `mapM` preserves length. -/
theorem mapM_some_length {α β : Type*} (f : α → Option β) :
    ∀ (l : List α) (l2 : List β), l.mapM f = some l2 → l2.length = l.length := by
  intro l
  induction l with
  | nil =>
    intro l2 h
    simp only [List.mapM_nil, pure, Option.some.injEq] at h
    simp [← h]
  | cons a l ih =>
    intro l2 h
    simp only [List.mapM_cons, bind, Option.bind_eq_some, pure,
      Option.some.injEq] at h
    obtain ⟨b, _, bs, hbs, hl2⟩ := h
    simp [← hl2, ih bs hbs]

/-- Helper: `split_list_chunks` produces one chunk per size. -/
theorem length_split_list_chunks :
    ∀ (sizes : List ℕ) (l : List ℝ), (split_list_chunks l sizes).length = sizes.length := by
  intro sizes
  induction sizes with
  | nil =>
    intro l
    rfl
  | cons s ss ih =>
    intro l
    simp [split_list_chunks, ih]

/-- Helper: structure of a successful `split_input_vector` run. -/
theorem split_input_vector_some {nG : ℕ} {x : List ℝ}
    {E : Matrix (Fin 1) (Fin 4) ℂ} {rho : Matrix (Fin 4) (Fin 1) ℂ}
    {Gmats : List (Matrix (Fin 4) (Fin 4) ℂ)}
    (hsplit : split_input_vector nG x = some (E, rho, Gmats)) :
    ∃ (T_vars : List (List ℝ)) (E_T rho_T : Matrix (Fin 2) (Fin 2) ℂ)
      (Gs_T : List (Matrix (Fin 4) (Fin 4) ℂ)),
      split_list x ([8, 8] ++ List.replicate nG 32) = some T_vars ∧
      vec_to_complex_matrix (T_vars.getD 0 []) 2 = some E_T ∧
      vec_to_complex_matrix (T_vars.getD 1 []) 2 = some rho_T ∧
      (T_vars.drop 2).mapM (fun v => vec_to_complex_matrix v 4) = some Gs_T ∧
      E = reshape_sq_to_row (E_T * E_Tᴴ) ∧
      rho = reshape_sq_to_col (rho_T * rho_Tᴴ) ∧
      Gmats = Gs_T.map fun T => choiToPtm (T * Tᴴ) := by
  simp only [split_input_vector, bind, Option.bind_eq_some, pure,
    Option.some.injEq] at hsplit
  obtain ⟨T_vars, h1, E_T, h2, rho_T, h3, Gs_T, h4, h5⟩ := hsplit
  have hE := congrArg Prod.fst h5
  have hrho := congrArg (fun t :
    Matrix (Fin 1) (Fin 4) ℂ × Matrix (Fin 4) (Fin 1) ℂ ×
      List (Matrix (Fin 4) (Fin 4) ℂ) => t.2.1) h5
  have hG := congrArg (fun t :
    Matrix (Fin 1) (Fin 4) ℂ × Matrix (Fin 4) (Fin 1) ℂ ×
      List (Matrix (Fin 4) (Fin 4) ℂ) => t.2.2) h5
  simp only at hE hrho hG
  exact ⟨T_vars, E_T, rho_T, Gs_T, h1, h2, h3, h4, hE.symm, hrho.symm, hG.symm⟩

/-- Helper: a successful `split_input_vector` decodes exactly `nG` gate
matrices. -/
theorem split_input_vector_gates_length {nG : ℕ} {x : List ℝ}
    {E : Matrix (Fin 1) (Fin 4) ℂ} {rho : Matrix (Fin 4) (Fin 1) ℂ}
    {Gmats : List (Matrix (Fin 4) (Fin 4) ℂ)}
    (hsplit : split_input_vector nG x = some (E, rho, Gmats)) :
    Gmats.length = nG := by
  obtain ⟨T_vars, E_T, rho_T, Gs_T, h1, _, _, h4, _, _, hG⟩ :=
    split_input_vector_some hsplit
  have hTlen : T_vars.length = 2 + nG := by
    rw [split_list] at h1
    split_ifs at h1 with hsum
    cases h1
    simp only [length_split_list_chunks, List.length_append,
      List.length_replicate, List.length_cons, List.length_nil]
  have hGs : Gs_T.length = nG := by
    have := mapM_some_length _ _ _ h4
    rw [this, List.length_drop, hTlen]
    omega
  simp [hG, hGs]

/-- Claim C8: every gate matrix decoded from an optimization vector by
`split_input_vector` (hence every gate matrix in the final result of
`fit`/`process_result`) is the PTM of a channel whose Choi matrix is
`T · T†` for the decoded factor `T`, and that Choi matrix is Hermitian
and positive-semidefinite by construction. -/
theorem split_gates_choi_psd {nG : ℕ} {x : List ℝ}
    {E : Matrix (Fin 1) (Fin 4) ℂ} {rho : Matrix (Fin 4) (Fin 1) ℂ}
    {Gmats : List (Matrix (Fin 4) (Fin 4) ℂ)}
    (hsplit : split_input_vector nG x = some (E, rho, Gmats)) :
    ∀ G ∈ Gmats, ∃ T : Matrix (Fin 4) (Fin 4) ℂ,
      G = choiToPtm (T * Tᴴ) ∧ (T * Tᴴ).IsHermitian ∧ (T * Tᴴ).PosSemidef := by
  obtain ⟨T_vars, E_T, rho_T, Gs_T, _, _, _, _, _, _, hG⟩ :=
    split_input_vector_some hsplit
  intro G hGmem
  rw [hG] at hGmem
  obtain ⟨T, _, hT⟩ := List.mem_map.mp hGmem
  exact ⟨T, hT.symm, Matrix.isHermitian_mul_conjTranspose_self T,
    Matrix.posSemidef_self_mul_conjTranspose T⟩

/-- Helper: length of a flattened matrix vector. -/
theorem length_matrix_to_vec {n : ℕ} (A : Matrix (Fin n) (Fin n) ℂ) :
    (matrix_to_vec A).length = n * n + n * n := by
  simp [matrix_to_vec]

/-- Helper: the first `n²` entries of `matrix_to_vec` are the real
parts in row-major order. -/
theorem matrix_to_vec_getD_re {n : ℕ} (A : Matrix (Fin n) (Fin n) ℂ)
    (p : Fin (n * n)) :
    (matrix_to_vec A).getD p.val 0 = (A (finDiv p) (finMod p)).re := by
  rw [matrix_to_vec, List.getD_append _ _ _ _ (by simp [p.isLt]),
    List.getD_eq_getElem _ _ (by simp [p.isLt]), List.getElem_ofFn]

/-- Helper: the last `n²` entries of `matrix_to_vec` are the imaginary
parts in row-major order. -/
theorem matrix_to_vec_getD_im {n : ℕ} (A : Matrix (Fin n) (Fin n) ℂ)
    (p : Fin (n * n)) :
    (matrix_to_vec A).getD (n * n + p.val) 0 = (A (finDiv p) (finMod p)).im := by
  rw [matrix_to_vec, List.getD_append_right _ _ _ _ (by simp)]
  have h : n * n + p.val -
      (List.ofFn fun p : Fin (n * n) => (A (finDiv p) (finMod p)).re).length = p.val := by
    simp
  rw [h, List.getD_eq_getElem _ _ (by simp [p.isLt]), List.getElem_ofFn]

/-- Helper: `ptm_matrix_values` lays the gates out in blocks of 32
values (16 real parts then 16 imaginary parts per gate). -/
theorem ptm_matrix_values_of_getD :
    ∀ (Gmats : List (Matrix (Fin 4) (Fin 4) ℂ)) (k : Fin Gmats.length) (r : ℕ),
      r < 32 →
      (ptm_matrix_values_of Gmats).getD (32 * k.val + r) 0 =
        (matrix_to_vec (Gmats.get k)).getD r 0 := by
  intro Gmats
  induction Gmats with
  | nil =>
    intro k
    exact absurd k.isLt (by simp)
  | cons A Gmats ih =>
    intro k r hr
    rcases k with ⟨kv, hk⟩
    cases kv with
    | zero =>
      simp only [ptm_matrix_values_of, List.flatMap_cons]
      rw [show 32 * (0 : ℕ) + r = r by omega,
        List.getD_append _ _ _ _ (by rw [length_matrix_to_vec]; omega)]
      rfl
    | succ kv =>
      simp only [ptm_matrix_values_of, List.flatMap_cons]
      rw [List.getD_append_right _ _ _ _ (by rw [length_matrix_to_vec]; omega)]
      have h32 : 32 * (kv + 1) + r - (matrix_to_vec A).length = 32 * kv + r := by
        rw [length_matrix_to_vec]
        omega
      rw [h32]
      have := ih ⟨kv, by simpa using Nat.lt_of_succ_lt_succ hk⟩ r hr
      simpa [ptm_matrix_values_of] using this

/-- Helper: row index of a packed row-major position. -/
theorem finDiv_pack (i j : Fin 4) :
    finDiv (⟨4 * i.val + j.val, by have := i.isLt; have := j.isLt; omega⟩ :
      Fin (4 * 4)) = i := by
  apply Fin.ext
  show (4 * i.val + j.val) / 4 = i.val
  rw [Nat.mul_add_div (by norm_num)]
  simp [Nat.div_eq_of_lt j.isLt]

/-- Helper: column index of a packed row-major position. -/
theorem finMod_pack (i j : Fin 4) :
    finMod (⟨4 * i.val + j.val, by have := i.isLt; have := j.isLt; omega⟩ :
      Fin (4 * 4)) = j := by
  apply Fin.ext
  show (4 * i.val + j.val) % 4 = j.val
  rw [Nat.mul_add_mod]
  exact Nat.mod_eq_of_lt j.isLt

/-- Claim C3: if every equality constraint of the constrained MLE stage
(`rho_trace_constraint` and `bounds_eq_constraint`) vanishes on the
decoding of a candidate vector `x` and every inequality constraint
(`bounds_ineq_constraint`) is nonnegative, then the decoded state
satisfies `Re(Tr(rho)) = 1` and `Im(Tr(rho)) = 0`, row 0 of every
decoded gate PTM equals `[1, 0, 0, 0]`, and every other real entry of
every decoded gate PTM lies in `[-1, 1]`. -/
theorem constraints_enforce_physicality {nG : ℕ} {x : List ℝ}
    {E : Matrix (Fin 1) (Fin 4) ℂ} {rho : Matrix (Fin 4) (Fin 1) ℂ}
    {Gmats : List (Matrix (Fin 4) (Fin 4) ℂ)}
    (hsplit : split_input_vector nG x = some (E, rho, Gmats))
    (heqr : ∀ r ∈ rho_trace_constraint_of rho, r = 0)
    (heqb : ∀ r ∈ bounds_eq_constraint_of (ptm_matrix_values_of Gmats) nG, r = 0)
    (hineq : ∀ r ∈ bounds_ineq_constraint_of (ptm_matrix_values_of Gmats) nG, 0 ≤ r) :
    ((reshape_col_to_sq rho).trace.re = 1 ∧ (reshape_col_to_sq rho).trace.im = 0) ∧
      ∀ k : Fin Gmats.length,
        (∀ j : Fin 4, Gmats.get k 0 j = if j = 0 then 1 else 0) ∧
        (∀ i j : Fin 4, i ≠ 0 →
          -1 ≤ (Gmats.get k i j).re ∧ (Gmats.get k i j).re ≤ 1) := by
  have hlen := split_input_vector_gates_length hsplit
  refine ⟨⟨?_, ?_⟩, ?_⟩
  · have h := heqr ((reshape_col_to_sq rho).trace.re - 1)
      (by simp [rho_trace_constraint_of])
    linarith
  · exact heqr (reshape_col_to_sq rho).trace.im (by simp [rho_trace_constraint_of])
  intro k
  have hk : k.val < nG := hlen ▸ k.isLt
  have hG00 : (ptm_matrix_values_of Gmats).getD (32 * k.val) 0 = 1 := by
    have h := heqb ((ptm_matrix_values_of Gmats).getD (32 * k.val) 0 - 1)
      (List.mem_flatMap.mpr ⟨k.val, List.mem_range.mpr hk, by simp⟩)
    linarith
  have hrow : ∀ t : Fin 3,
      (ptm_matrix_values_of Gmats).getD (32 * k.val + 1 + t.val) 0 = 0 := by
    intro t
    have h := heqb ((ptm_matrix_values_of Gmats).getD (32 * k.val + 1 + t.val) 0 - 0)
      (List.mem_flatMap.mpr ⟨k.val, List.mem_range.mpr hk,
        List.mem_append.mpr (Or.inl (List.mem_append.mpr
          (Or.inr ((List.mem_ofFn _ _).mpr ⟨t, rfl⟩))))⟩)
    linarith
  have him : ∀ t : Fin 16,
      (ptm_matrix_values_of Gmats).getD (32 * k.val + 16 + t.val) 0 = 0 := by
    intro t
    have h := heqb ((ptm_matrix_values_of Gmats).getD (32 * k.val + 16 + t.val) 0 - 0)
      (List.mem_flatMap.mpr ⟨k.val, List.mem_range.mpr hk,
        List.mem_append.mpr (Or.inr ((List.mem_ofFn _ _).mpr ⟨t, rfl⟩))⟩)
    linarith
  have hbnd : ∀ t : ℕ, t < 12 →
      -1 ≤ (ptm_matrix_values_of Gmats).getD (32 * k.val + 4 + t) 0 ∧
        (ptm_matrix_values_of Gmats).getD (32 * k.val + 4 + t) 0 ≤ 1 := by
    intro t ht
    constructor
    · have h := hineq ((ptm_matrix_values_of Gmats).getD (32 * k.val + 4 + t) 0 + 1)
        (List.mem_flatMap.mpr ⟨k.val, List.mem_range.mpr hk,
          List.mem_flatMap.mpr ⟨t, List.mem_range.mpr ht, by simp⟩⟩)
      linarith
    · have h := hineq (-((ptm_matrix_values_of Gmats).getD (32 * k.val + 4 + t) 0) + 1)
        (List.mem_flatMap.mpr ⟨k.val, List.mem_range.mpr hk,
          List.mem_flatMap.mpr ⟨t, List.mem_range.mpr ht, by simp⟩⟩)
      linarith
  have hre_entry : ∀ i j : Fin 4,
      ((Gmats.get k) i j).re =
        (ptm_matrix_values_of Gmats).getD (32 * k.val + 4 * i.val + j.val) 0 := by
    intro i j
    have hp : 4 * i.val + j.val < 32 := by
      have := i.isLt
      have := j.isLt
      omega
    have h := ptm_matrix_values_of_getD Gmats k (4 * i.val + j.val) hp
    rw [show 32 * k.val + (4 * i.val + j.val) = 32 * k.val + 4 * i.val + j.val
      from by omega] at h
    rw [h]
    have h2 := matrix_to_vec_getD_re (Gmats.get k)
      (⟨4 * i.val + j.val, by have := i.isLt; have := j.isLt; omega⟩ : Fin (4 * 4))
    rw [finDiv_pack, finMod_pack] at h2
    exact h2.symm
  have him_entry : ∀ i j : Fin 4,
      ((Gmats.get k) i j).im =
        (ptm_matrix_values_of Gmats).getD (32 * k.val + 16 + (4 * i.val + j.val)) 0 := by
    intro i j
    have hp : 16 + (4 * i.val + j.val) < 32 := by
      have := i.isLt
      have := j.isLt
      omega
    have h := ptm_matrix_values_of_getD Gmats k (16 + (4 * i.val + j.val)) hp
    rw [show 32 * k.val + (16 + (4 * i.val + j.val)) =
      32 * k.val + 16 + (4 * i.val + j.val) from by omega] at h
    rw [h]
    have h2 := matrix_to_vec_getD_im (Gmats.get k)
      (⟨4 * i.val + j.val, by have := i.isLt; have := j.isLt; omega⟩ : Fin (4 * 4))
    rw [finDiv_pack, finMod_pack] at h2
    exact h2.symm
  have hre0 : ∀ j : Fin 4, ((Gmats.get k) 0 j).re =
      (ptm_matrix_values_of Gmats).getD (32 * k.val + j.val) 0 := by
    intro j
    rw [hre_entry 0 j]
    norm_num
  have him0 : ∀ j : Fin 4, ((Gmats.get k) 0 j).im =
      (ptm_matrix_values_of Gmats).getD (32 * k.val + 16 + j.val) 0 := by
    intro j
    rw [him_entry 0 j]
    norm_num
  refine ⟨fun j => ?_, fun i j hi => ?_⟩
  · apply Complex.ext
    · rw [hre0 j]
      by_cases hj : j = 0
      · subst hj
        simp only [if_pos rfl, Complex.one_re]
        simpa using hG00
      · have hjv : 1 ≤ j.val := by
          rcases Nat.eq_zero_or_pos j.val with h0 | h0
          · exact absurd (Fin.ext h0) hj
          · exact h0
        have h := hrow ⟨j.val - 1, by have := j.isLt; omega⟩
        rw [show 32 * k.val + 1 + (j.val - 1) = 32 * k.val + j.val
          from by omega] at h
        rw [if_neg hj]
        simpa using h
    · rw [him0 j]
      have h := him ⟨j.val, by have := j.isLt; omega⟩
      rw [apply_ite Complex.im]
      simp only [Complex.one_im, Complex.zero_im, ite_self]
      exact h
  · have hiv : 1 ≤ i.val := by
      rcases Nat.eq_zero_or_pos i.val with h0 | h0
      · exact absurd (Fin.ext h0) hi
      · exact h0
    have hb := hbnd (4 * i.val + j.val - 4) (by have := i.isLt; have := j.isLt; omega)
    rw [show 32 * k.val + 4 + (4 * i.val + j.val - 4) =
      32 * k.val + 4 * i.val + j.val from by have := j.isLt; omega] at hb
    rw [hre_entry i j]
    exact hb

/-- Helper: decoding a flattened complex matrix recovers the matrix. -/
theorem vtcm_mtv {n : ℕ} (M : Matrix (Fin n) (Fin n) ℂ) :
    vec_to_complex_matrix (matrix_to_vec M) n = some M := by
  rw [vec_to_complex_matrix, if_pos (length_matrix_to_vec M).symm]
  congr 1
  ext i j
  have hn : 0 < n := Nat.lt_of_le_of_lt (Nat.zero_le i.val) i.isLt
  have hp : n * i.val + j.val < n * n := by
    have hi := i.isLt
    have hj := j.isLt
    have h1 : n * i.val + j.val < n * (i.val + 1) := by
      rw [Nat.mul_succ]
      omega
    exact Nat.lt_of_lt_of_le h1 (Nat.mul_le_mul_left n hi)
  simp only [Matrix.of_apply]
  rw [show n * n + n * i.val + j.val = n * n + (n * i.val + j.val) from by omega]
  have hre := matrix_to_vec_getD_re M ⟨n * i.val + j.val, hp⟩
  have him := matrix_to_vec_getD_im M ⟨n * i.val + j.val, hp⟩
  have hdiv : finDiv (⟨n * i.val + j.val, hp⟩ : Fin (n * n)) = i := by
    apply Fin.ext
    show (n * i.val + j.val) / n = i.val
    rw [Nat.mul_add_div hn]
    simp [Nat.div_eq_of_lt j.isLt]
  have hmod : finMod (⟨n * i.val + j.val, hp⟩ : Fin (n * n)) = j := by
    apply Fin.ext
    show (n * i.val + j.val) % n = j.val
    rw [Nat.mul_add_mod]
    exact Nat.mod_eq_of_lt j.isLt
  rw [hdiv, hmod] at hre him
  rw [hre, him]
  exact Complex.re_add_im (M i j)

/-- Helper: decoding a flattened complex matrix recovers the matrix
(`complex_matrix_to_vec` form). -/
theorem vtcm_cmv {n : ℕ} (M : Matrix (Fin n) (Fin n) ℂ) :
    vec_to_complex_matrix (complex_matrix_to_vec M) n = some M :=
  vtcm_mtv M

/-- Helper: taking exactly the length of the first list of an append
returns that list. -/
theorem take_append_of_length {α : Type*} (l1 l2 : List α) (n : ℕ)
    (h : l1.length = n) : (l1 ++ l2).take n = l1 := by
  subst h
  exact List.take_left l1 l2

/-- Helper: dropping exactly the length of the first list of an append
returns the second list. -/
theorem drop_append_of_length {α : Type*} (l1 l2 : List α) (n : ℕ)
    (h : l1.length = n) : (l1 ++ l2).drop n = l2 := by
  subst h
  exact List.drop_left l1 l2

/-- Helper: splitting a flattened list of 32-element blocks into
32-sized chunks recovers the blocks. -/
theorem split_list_chunks_flatten :
    ∀ (cs : List (List ℝ)), (∀ c ∈ cs, c.length = 32) →
      split_list_chunks cs.flatten (List.replicate cs.length 32) = cs := by
  intro cs
  induction cs with
  | nil =>
    intro _
    rfl
  | cons c cs ih =>
    intro h
    simp only [List.flatten_cons, List.length_cons, List.replicate_succ,
      split_list_chunks]
    rw [take_append_of_length c _ 32 (h c (by simp)),
      drop_append_of_length c _ 32 (h c (by simp)),
      ih fun d hd => h d (by simp [hd])]

/-- Helper: the length of a flattened list of 32-element blocks. -/
theorem length_flatten_32 :
    ∀ (cs : List (List ℝ)), (∀ c ∈ cs, c.length = 32) →
      cs.flatten.length = 32 * cs.length := by
  intro cs
  induction cs with
  | nil =>
    intro _
    rfl
  | cons c cs ih =>
    intro h
    simp only [List.flatten_cons, List.length_append, List.length_cons,
      h c (by simp), ih fun d hd => h d (by simp [hd])]
    ring

/-- Helper: `split_list` applied to the layout produced by
`join_input_vector` recovers the three kinds of blocks. -/
theorem split_list_join_layout (a b : List ℝ) (cs : List (List ℝ))
    (ha : a.length = 8) (hb : b.length = 8) (hcs : ∀ c ∈ cs, c.length = 32) :
    split_list (a ++ b ++ cs.flatten) ([8, 8] ++ List.replicate cs.length 32) =
      some ([a, b] ++ cs) := by
  have hflat := length_flatten_32 cs hcs
  rw [split_list, if_pos]
  · congr 1
    show split_list_chunks (a ++ b ++ cs.flatten)
      (8 :: 8 :: List.replicate cs.length 32) = a :: b :: cs
    rw [List.append_assoc]
    simp only [split_list_chunks]
    rw [take_append_of_length a _ 8 ha, drop_append_of_length a _ 8 ha,
      take_append_of_length b _ 8 hb, drop_append_of_length b _ 8 hb,
      split_list_chunks_flatten cs hcs]
  · simp [hflat, ha, hb]
    ring

/-- Helper: decoding a list of flattened `4 × 4` complex matrices with
`mapM` recovers the matrices. -/
theorem mapM_vtcm_cmv :
    ∀ (l : List (Matrix (Fin 4) (Fin 4) ℂ)),
      (l.map fun M => complex_matrix_to_vec M).mapM
        (fun v => vec_to_complex_matrix v 4) = some l := by
  intro l
  induction l with
  | nil => rfl
  | cons M l ih =>
    rw [List.map_cons, List.mapM_cons, vtcm_cmv, ih]
    rfl

/-- Helper: reshaping a row to a square and back is the identity. -/
theorem reshape_row_roundtrip (E : Matrix (Fin 1) (Fin 4) ℂ) :
    reshape_sq_to_row (reshape_row_to_sq E) = E := by
  ext i p
  fin_cases i <;> fin_cases p <;> rfl

/-- Helper: reshaping a column to a square and back is the identity. -/
theorem reshape_col_roundtrip (rho : Matrix (Fin 4) (Fin 1) ℂ) :
    reshape_sq_to_col (reshape_col_to_sq rho) = rho := by
  ext p i
  fin_cases i <;> fin_cases p <;> rfl

/-- Helper: `finHi` tabulated. -/
theorem finHi_eval : finHi = ![0, 0, 1, 1] := by decide

/-- Helper: `finLo` tabulated. -/
theorem finLo_eval : finLo = ![0, 1, 0, 1] := by decide

/-- Helper: the mixed-product property of the `2 × 2` Kronecker
product. -/
theorem kron2_mul (A B C D : Matrix (Fin 2) (Fin 2) ℂ) :
    kron2 A B * kron2 C D = kron2 (A * C) (B * D) := by
  ext p q
  fin_cases p <;> fin_cases q <;>
    simp [kron2, Matrix.mul_apply, Fin.sum_univ_four, Fin.sum_univ_two,
      finHi_eval, finLo_eval] <;>
    ring

/-- Helper: the trace of a `2 × 2` Kronecker product is the product of
the traces. -/
theorem trace_kron2 (A B : Matrix (Fin 2) (Fin 2) ℂ) :
    (kron2 A B).trace = A.trace * B.trace := by
  simp [Matrix.trace, kron2, Fin.sum_univ_four, Fin.sum_univ_two,
    finHi_eval, finLo_eval, Matrix.diag]
  ring

/-- Helper: pairwise trace orthogonality of the Pauli matrices. -/
theorem pauli_orthogonal (a c : Fin 4) :
    (pauli a * pauli c).trace = if a = c then 2 else 0 := by
  fin_cases a <;> fin_cases c <;>
    simp [pauli, Matrix.trace_fin_two, Matrix.mul_apply, Fin.sum_univ_two] <;>
    norm_num [Complex.ext_iff]

/-- Helper: pairwise trace orthogonality of the Pauli-pair basis
matrices. -/
theorem pauliTensor_orthogonal (a b c d : Fin 4) :
    (pauliTensor a b * pauliTensor c d).trace = if a = c ∧ b = d then 4 else 0 := by
  rw [pauliTensor, pauliTensor, kron2_mul, trace_kron2, ← Matrix.transpose_mul,
    Matrix.trace_transpose, pauli_orthogonal, pauli_orthogonal]
  by_cases h1 : a = c <;> by_cases h2 : b = d
  · simp [h1, h2]
    norm_num
  · simp [h1, h2]
    intro h
    exact absurd h.symm h2
  · simp [h1, h2]
  · simp [h1, h2]

/-- Helper: converting a PTM to its Choi matrix and back is the
identity. -/
theorem choiToPtm_ptmToChoi (R : Matrix (Fin 4) (Fin 4) ℂ) :
    choiToPtm (ptmToChoi R) = R := by
  ext a b
  simp only [choiToPtm, ptmToChoi, Matrix.of_apply]
  rw [Matrix.smul_mul, Matrix.trace_smul]
  simp only [Matrix.sum_mul, Matrix.smul_mul, Matrix.trace_sum, Matrix.trace_smul,
    pauliTensor_orthogonal, smul_eq_mul]
  simp only [ite_and, mul_ite, mul_zero]
  rw [Finset.sum_comm]
  simp [Finset.sum_ite_eq, Finset.sum_ite_eq']
  ring

/-- Helper: for a positive-semidefinite matrix, the eigh-based factor
`T = P·diag(sqrt(eigenvals))` of `get_cholesky_like_decomposition`
satisfies `T · T† = M`. -/
theorem chol_mul_conjTranspose {n : ℕ} {M : Matrix (Fin n) (Fin n) ℂ}
    (h : M.PosSemidef) :
    get_cholesky_like_decomposition M * (get_cholesky_like_decomposition M)ᴴ = M := by
  have key : Matrix.diagonal
        (fun i => ((Real.sqrt (max (h.1.eigenvalues i) 0) : ℝ) : ℂ)) *
      Matrix.diagonal
        (star fun i => ((Real.sqrt (max (h.1.eigenvalues i) 0) : ℝ) : ℂ)) =
      Matrix.diagonal (RCLike.ofReal ∘ h.1.eigenvalues) := by
    rw [Matrix.diagonal_mul_diagonal]
    ext i j
    rw [Matrix.diagonal_apply, Matrix.diagonal_apply]
    split_ifs with hij
    · subst hij
      have hnn := h.eigenvalues_nonneg i
      simp only [Pi.star_apply, Complex.star_def, Complex.conj_ofReal,
        Function.comp_apply]
      rw [max_eq_left hnn, ← Complex.ofReal_mul, Real.mul_self_sqrt hnn]
      rfl
    · rfl
  rw [get_cholesky_like_decomposition, dif_pos h.1, Matrix.conjTranspose_mul,
    Matrix.diagonal_conjTranspose, Matrix.mul_assoc,
    ← Matrix.mul_assoc (Matrix.diagonal _) (Matrix.diagonal _), key,
    ← Matrix.mul_assoc, ← Matrix.star_eq_conjTranspose]
  exact (h.1.spectral_theorem).symm

/-- Claim C9: round-trip of the reparameterization.  If `E` and `rho`
reshape to positive-semidefinite (hence Hermitian) `2 × 2` matrices and
every gate's Choi matrix (obtained from its PTM) is
positive-semidefinite, then decoding after encoding is the identity:
`split_input_vector (join_input_vector E rho Gs)` succeeds and returns
exactly `E`, `rho` and the same gate PTM matrices. -/
theorem split_join_roundtrip (E : Matrix (Fin 1) (Fin 4) ℂ)
    (rho : Matrix (Fin 4) (Fin 1) ℂ) (Gs : List (Matrix (Fin 4) (Fin 4) ℂ))
    (hE : (reshape_row_to_sq E).PosSemidef)
    (hrho : (reshape_col_to_sq rho).PosSemidef)
    (hGs : ∀ G ∈ Gs, (ptmToChoi G).PosSemidef) :
    split_input_vector Gs.length (join_input_vector E rho Gs) =
      some (E, rho, Gs) := by
  set a := complex_matrix_to_vec
    (get_cholesky_like_decomposition (reshape_row_to_sq E)) with ha
  set b := complex_matrix_to_vec
    (get_cholesky_like_decomposition (reshape_col_to_sq rho)) with hb
  set cs := Gs.map fun G => complex_matrix_to_vec
    (get_cholesky_like_decomposition (ptmToChoi G)) with hcs
  have hla : a.length = 8 := by
    rw [ha]
    simp [complex_matrix_to_vec, length_matrix_to_vec]
  have hlb : b.length = 8 := by
    rw [hb]
    simp [complex_matrix_to_vec, length_matrix_to_vec]
  have hlcs : ∀ c ∈ cs, c.length = 32 := by
    intro c hc
    rw [hcs] at hc
    obtain ⟨G, _, hG⟩ := List.mem_map.mp hc
    rw [← hG]
    simp [complex_matrix_to_vec, length_matrix_to_vec]
  have hcslen : cs.length = Gs.length := by
    rw [hcs]
    exact List.length_map Gs _
  have hsplit := split_list_join_layout a b cs hla hlb hlcs
  rw [hcslen] at hsplit
  have hjoin : join_input_vector E rho Gs = a ++ b ++ cs.flatten := rfl
  simp only [split_input_vector, hjoin, bind, Option.bind_eq_some, pure,
    Option.some.injEq]
  refine ⟨[a, b] ++ cs, hsplit,
    get_cholesky_like_decomposition (reshape_row_to_sq E), vtcm_cmv _,
    get_cholesky_like_decomposition (reshape_col_to_sq rho), vtcm_cmv _,
    Gs.map fun G => get_cholesky_like_decomposition (ptmToChoi G), ?_, ?_⟩
  · have hdrop : ([a, b] ++ cs).drop 2 = cs := rfl
    rw [hdrop]
    have hform : cs = (Gs.map fun G =>
        get_cholesky_like_decomposition (ptmToChoi G)).map
          fun M => complex_matrix_to_vec M := by
      rw [hcs, List.map_map]
      rfl
    rw [hform]
    exact mapM_vtcm_cmv _
  · have h1 : reshape_sq_to_row
        (get_cholesky_like_decomposition (reshape_row_to_sq E) *
          (get_cholesky_like_decomposition (reshape_row_to_sq E))ᴴ) = E := by
      rw [chol_mul_conjTranspose hE, reshape_row_roundtrip]
    have h2 : reshape_sq_to_col
        (get_cholesky_like_decomposition (reshape_col_to_sq rho) *
          (get_cholesky_like_decomposition (reshape_col_to_sq rho))ᴴ) = rho := by
      rw [chol_mul_conjTranspose hrho, reshape_col_roundtrip]
    have h3 : (Gs.map fun G =>
        get_cholesky_like_decomposition (ptmToChoi G)).map
          (fun T => choiToPtm (T * Tᴴ)) = Gs := by
      rw [List.map_map]
      calc (Gs.map ((fun T => choiToPtm (T * Tᴴ)) ∘
            fun G => get_cholesky_like_decomposition (ptmToChoi G))) =
          Gs.map id := List.map_congr_left fun G hG => by
            simp only [Function.comp_apply, id_eq]
            rw [chol_mul_conjTranspose (hGs G hG), choiToPtm_ptmToChoi]
        _ = Gs := List.map_id Gs
    rw [h1, h2, h3]

/-- Helper: reshaping the zero square matrix gives the zero row. -/
theorem reshape_sq_to_row_zero : reshape_sq_to_row 0 = 0 := by
  ext i p
  simp [reshape_sq_to_row]

/-- Helper: reshaping the zero square matrix gives the zero column. -/
theorem reshape_sq_to_col_zero : reshape_sq_to_col 0 = 0 := by
  ext p i
  simp [reshape_sq_to_col]

/-- Helper: the PTM of the zero Choi matrix is zero. -/
theorem choiToPtm_zero : choiToPtm 0 = 0 := by
  ext a b
  simp [choiToPtm]

/-- Helper: evaluation of `split_input_vector` on the all-zero
vector. -/
theorem split_c8x : split_input_vector 1 c8x = some (0, 0, [0]) := by
  have hsplit := split_list_join_layout
    (complex_matrix_to_vec (0 : Matrix (Fin 2) (Fin 2) ℂ))
    (complex_matrix_to_vec (0 : Matrix (Fin 2) (Fin 2) ℂ))
    [complex_matrix_to_vec (0 : Matrix (Fin 4) (Fin 4) ℂ)]
    (by simp [complex_matrix_to_vec, length_matrix_to_vec])
    (by simp [complex_matrix_to_vec, length_matrix_to_vec])
    (by
      intro c hc
      rw [List.mem_singleton] at hc
      rw [hc]
      simp [complex_matrix_to_vec, length_matrix_to_vec])
  simp only [List.length_cons, List.length_nil] at hsplit
  simp only [split_input_vector, c8x, bind, Option.bind_eq_some, pure,
    Option.some.injEq]
  refine ⟨_, hsplit, 0, vtcm_cmv _, 0, vtcm_cmv _, [0], ?_, ?_⟩
  · show ([complex_matrix_to_vec (0 : Matrix (Fin 4) (Fin 4) ℂ)]).mapM
      (fun v => vec_to_complex_matrix v 4) = some [0]
    rw [List.mapM_cons, vtcm_cmv]
    rfl
  · simp [reshape_sq_to_row_zero, reshape_sq_to_col_zero, choiToPtm_zero,
      Matrix.zero_mul]

/-- Witness for C8: the all-zero optimization vector decodes
successfully and its (zero) gate matrix is the PTM of a `T · T†` Choi
matrix that is Hermitian positive-semidefinite. -/
theorem split_gates_choi_psd_witness :
    ∃ T : Matrix (Fin 4) (Fin 4) ℂ,
      (0 : Matrix (Fin 4) (Fin 4) ℂ) = choiToPtm (T * Tᴴ) ∧
        (T * Tᴴ).IsHermitian ∧ (T * Tᴴ).PosSemidef :=
  split_gates_choi_psd split_c8x 0 (by simp)

/-- Witness for C9: the empty gate list with `E = 0`, `rho = 0`
(whose reshapes are positive-semidefinite) round-trips. -/
theorem split_join_roundtrip_witness :
    split_input_vector ([] : List (Matrix (Fin 4) (Fin 4) ℂ)).length
      (join_input_vector 0 0 []) = some (0, 0, []) :=
  split_join_roundtrip 0 0 []
    (by
      rw [show reshape_row_to_sq 0 = 0 from by ext i j; simp [reshape_row_to_sq]]
      exact Matrix.PosSemidef.zero)
    (by
      rw [show reshape_col_to_sq 0 = 0 from by ext i j; simp [reshape_col_to_sq]]
      exact Matrix.PosSemidef.zero)
    (by simp)

/-- Counterexample to C6 as stated: invertibility of `B` alone does not
suffice.  With `E = 0` (so that the matrix `A` of rows `E · F_i` is
singular) but `B` invertible, the Gram matrix of the exactly generated
probabilities is singular, `np.linalg.inv` raises `LinAlgError`, and
`linear_inversion` raises instead of returning `B⁻¹ · G_k · B`. -/
theorem linear_inversion_exact_data_B_only_insufficient :
    IsUnit (spam_col_matrix w6spam w6F w6rho).det ∧
      linear_inversion w6spam [(0 : ℕ)]
        (fun s t => (w6E0 * w6F s * w6F t * w6rho) 0 0)
        (fun s g t => (w6E0 * w6F s * w6G g * w6F t * w6rho) 0 0) = none := by
  constructor
  · rw [Matrix.det_fin_one]
    simp [spam_col_matrix, w6spam, w6rho, w6F, Matrix.mul_apply]
  · have hsing : ¬ IsUnit (gram_matrix w6spam
        (fun s t => (w6E0 * w6F s * w6F t * w6rho) 0 0)).det := by
      rw [Matrix.det_fin_one]
      simp [gram_matrix, w6spam, w6E0, w6F, w6rho, Matrix.mul_apply]
    rw [linear_inversion, if_neg hsing]

/-- Helper: reshaping a square to a column and back is the identity. -/
theorem reshape_sq_col_roundtrip (M : Matrix (Fin 2) (Fin 2) ℂ) :
    reshape_col_to_sq (reshape_sq_to_col M) = M := by
  ext i j
  fin_cases i <;> fin_cases j <;> rfl

/-- Helper: real parts of the flattened identity PTM. -/
theorem one4_getD_re (r : ℕ) (h : r < 16) :
    (matrix_to_vec (1 : Matrix (Fin 4) (Fin 4) ℂ)).getD r 0 =
      if finDiv (⟨r, h⟩ : Fin (4 * 4)) = finMod ⟨r, h⟩ then 1 else 0 := by
  have h1 := matrix_to_vec_getD_re (1 : Matrix (Fin 4) (Fin 4) ℂ) ⟨r, h⟩
  simp only [Matrix.one_apply, apply_ite Complex.re, Complex.one_re,
    Complex.zero_re] at h1
  exact h1

/-- Helper: imaginary parts of the flattened identity PTM vanish. -/
theorem one4_getD_im (r : ℕ) (h : r < 16) :
    (matrix_to_vec (1 : Matrix (Fin 4) (Fin 4) ℂ)).getD (16 + r) 0 = 0 := by
  have h1 := matrix_to_vec_getD_im (1 : Matrix (Fin 4) (Fin 4) ℂ) ⟨r, h⟩
  simp only [Matrix.one_apply, apply_ite Complex.im, Complex.one_im,
    Complex.zero_im, ite_self] at h1
  exact h1

/-- Helper: the PTM value list of a single gate. -/
theorem ptm_vals_single (M : Matrix (Fin 4) (Fin 4) ℂ) :
    ptm_matrix_values_of [M] = matrix_to_vec M := by
  simp [ptm_matrix_values_of]

/-- Helper: the Choi matrix of the identity PTM. -/
theorem ptmToChoi_one :
    ptmToChoi 1 = !![1, 0, 0, 1; 0, 0, 0, 0; 0, 0, 0, 0; 1, 0, 0, 1] := by
  ext a b
  simp only [ptmToChoi, Matrix.one_apply, ite_smul, one_smul, zero_smul,
    Finset.sum_ite_eq, Finset.mem_univ, if_true]
  fin_cases a <;> fin_cases b <;>
    simp [pauliTensor, kron2, pauli, finHi_eval, finLo_eval, Fin.sum_univ_four,
      Matrix.smul_apply, Matrix.sum_apply, Matrix.vecHead, Matrix.vecTail] <;>
    norm_num [Complex.ext_iff]

/-- Helper: the factor `c3T` squares to the Choi matrix of the
identity PTM. -/
theorem c3T_mul :
    c3T * c3Tᴴ = !![1, 0, 0, 1; 0, 0, 0, 0; 0, 0, 0, 0; 1, 0, 0, 1] := by
  ext p q
  fin_cases p <;> fin_cases q <;>
    simp [c3T, Matrix.mul_apply, Matrix.conjTranspose_apply, Fin.sum_univ_four,
      Matrix.vecHead, Matrix.vecTail] <;>
    norm_num [Complex.ext_iff]

/-- Helper: square of the concrete state factor. -/
theorem rhoT_mul :
    (!![1, 0; 0, 0] : Matrix (Fin 2) (Fin 2) ℂ) * (!![1, 0; 0, 0] :
      Matrix (Fin 2) (Fin 2) ℂ)ᴴ = !![1, 0; 0, 0] := by
  ext p q
  fin_cases p <;> fin_cases q <;>
    simp [Matrix.mul_apply, Matrix.conjTranspose_apply, Fin.sum_univ_two] <;>
    norm_num [Complex.ext_iff]

/-- Helper: evaluation of `split_input_vector` on the concrete
constraint-satisfying vector. -/
theorem split_c3x :
    split_input_vector 1 c3x =
      some (0, reshape_sq_to_col !![1, 0; 0, 0], [1]) := by
  have hsplit := split_list_join_layout
    (complex_matrix_to_vec (0 : Matrix (Fin 2) (Fin 2) ℂ))
    (complex_matrix_to_vec (!![1, 0; 0, 0] : Matrix (Fin 2) (Fin 2) ℂ))
    [complex_matrix_to_vec c3T]
    (by simp [complex_matrix_to_vec, length_matrix_to_vec])
    (by simp [complex_matrix_to_vec, length_matrix_to_vec])
    (by
      intro c hc
      rw [List.mem_singleton] at hc
      rw [hc]
      simp [complex_matrix_to_vec, length_matrix_to_vec])
  simp only [List.length_cons, List.length_nil] at hsplit
  simp only [split_input_vector, c3x, bind, Option.bind_eq_some, pure,
    Option.some.injEq]
  refine ⟨_, hsplit, 0, vtcm_cmv _, !![1, 0; 0, 0], vtcm_cmv _, [c3T], ?_, ?_⟩
  · show ([complex_matrix_to_vec c3T]).mapM
      (fun v => vec_to_complex_matrix v 4) = some [c3T]
    rw [List.mapM_cons, vtcm_cmv]
    rfl
  · have h3 : choiToPtm (c3T * c3Tᴴ) = 1 := by
      rw [c3T_mul, ← ptmToChoi_one, choiToPtm_ptmToChoi]
    rw [Matrix.zero_mul, reshape_sq_to_row_zero, rhoT_mul]
    simp [h3]

/-- Witness for C3: the vector `c3x` decodes to a state of trace one
and the identity gate PTM, satisfies every constraint, and the claimed
physicality properties hold for it. -/
theorem constraints_enforce_physicality_witness :
    ((reshape_col_to_sq (reshape_sq_to_col (!![1, 0; 0, 0] :
        Matrix (Fin 2) (Fin 2) ℂ))).trace.re = 1 ∧
      (reshape_col_to_sq (reshape_sq_to_col (!![1, 0; 0, 0] :
        Matrix (Fin 2) (Fin 2) ℂ))).trace.im = 0) ∧
      ∀ k : Fin ([(1 : Matrix (Fin 4) (Fin 4) ℂ)].length),
        (∀ j : Fin 4, [(1 : Matrix (Fin 4) (Fin 4) ℂ)].get k 0 j =
          if j = 0 then 1 else 0) ∧
        (∀ i j : Fin 4, i ≠ 0 →
          -1 ≤ ([(1 : Matrix (Fin 4) (Fin 4) ℂ)].get k i j).re ∧
            ([(1 : Matrix (Fin 4) (Fin 4) ℂ)].get k i j).re ≤ 1) := by
  have htr : (!![1, 0; 0, 0] : Matrix (Fin 2) (Fin 2) ℂ).trace = 1 := by
    simp [Matrix.trace_fin_two]
  refine constraints_enforce_physicality split_c3x ?_ ?_ ?_
  · intro r hr
    have htr2 : (reshape_col_to_sq (reshape_sq_to_col (!![1, 0; 0, 0] :
        Matrix (Fin 2) (Fin 2) ℂ))).trace = 1 := by
      rw [reshape_sq_col_roundtrip, htr]
    simp only [rho_trace_constraint_of, htr2, List.mem_cons,
      List.not_mem_nil, or_false] at hr
    rcases hr with h | h <;> rw [h] <;> norm_num
  · intro r hr
    rw [ptm_vals_single] at hr
    obtain ⟨k, hk, hmem⟩ := List.mem_flatMap.mp hr
    rw [List.mem_range] at hk
    have hk0 : k = 0 := by omega
    subst hk0
    rcases List.mem_append.mp hmem with hmem1 | hmemim
    · rcases List.mem_append.mp hmem1 with hmem0 | hmemrow
      · rw [List.mem_singleton] at hmem0
        rw [hmem0, show (32 : ℕ) * 0 = 0 from by norm_num,
          one4_getD_re 0 (by norm_num), if_pos (by decide)]
        norm_num
      · obtain ⟨t, ht⟩ := (List.mem_ofFn _ _).mp hmemrow
        rw [← ht]
        dsimp only
        have hlt : 1 + t.val < 4 := by have := t.isLt; omega
        rw [show 32 * 0 + 1 + t.val = 1 + t.val from by omega,
          one4_getD_re (1 + t.val) (by omega), if_neg ?_]
        · norm_num
        · intro hcontra
          have hv := congrArg Fin.val hcontra
          simp only [finDiv, finMod] at hv
          rw [Nat.div_eq_of_lt hlt, Nat.mod_eq_of_lt hlt] at hv
          omega
    · obtain ⟨t, ht⟩ := (List.mem_ofFn _ _).mp hmemim
      rw [← ht]
      dsimp only
      rw [show 32 * 0 + 16 + t.val = 16 + t.val from by omega,
        one4_getD_im t.val t.isLt]
      norm_num
  · intro r hr
    rw [ptm_vals_single] at hr
    obtain ⟨k, hk, hmem⟩ := List.mem_flatMap.mp hr
    rw [List.mem_range] at hk
    have hk0 : k = 0 := by omega
    subst hk0
    obtain ⟨t, htr2, hmem2⟩ := List.mem_flatMap.mp hmem
    rw [List.mem_range] at htr2
    rw [show 32 * 0 + 4 + t = 4 + t from by omega] at hmem2
    have hv := one4_getD_re (4 + t) (by omega)
    simp only [List.mem_cons, List.not_mem_nil, or_false] at hmem2
    rcases hmem2 with h | h <;> rw [h, hv] <;> split_ifs <;> norm_num
